import Mathlib

/-!
Shallow embedding of the `MemFloppyDisk` in-memory filesystem from
`queer/floppy-disk` (`src/mem/mod.rs`, `src/mem/inode.rs`).

Modelling choices, each noted at the definition it concerns:
* Rust `PathBuf` values are modelled as the list of components that
  `Path::components()` yields (`RootDir`, `Prefix`, `CurDir`, `ParentDir`,
  `Normal`); `PathBuf` equality, `starts_with`, `parent`, `pop` and `push`
  are component-wise, exactly as in `std::path`.
* The `BTreeMap<PathBuf, Arc<RwLock<Inode>>>` entry table is modelled as an
  association list.  The claims under study only use key membership, lookup,
  insertion, removal and linear scans, none of which depend on the BTreeMap's
  key ordering, so the list order is irrelevant to every statement below.
* `u64` counters are tracked as `Nat` reduced mod `2 ^ 64` where the source
  increments them (release-mode wrapping semantics).
* Byte buffers (`Vec<u8>`) are `List Nat`; no modelled operation depends on
  a byte being below 256.
* `SystemTime` fields (`atime`/`mtime`/`ctime`) are omitted: they are
  creation-time snapshots of the wall clock, and no claim mentions them.
* Fallible operations return `Except ErrKind _`; operations with reachable
  panics (`unwrap` / `assert!` in the source) return `POut _`, which has an
  explicit `panicked` outcome, and `looped` for the unbounded symlink-chase
  loop of `canonicalize` (which the source would never exit).
-/

deriving instance DecidableEq for Except

namespace Floppy

/-- A single `std::path::Component`.  `drivePre` stands for
`Component::Prefix` (Windows drive/UNC prefixes). -/
inductive PathComp
  | rootDir
  | curDir
  | parentDir
  | drivePre (s : String)
  | normal (s : String)
deriving DecidableEq

/-- A path, as the component list produced by `Path::components()`. -/
abbrev MemPath := List PathComp

/-- Is this component a `RootDir` or a `Prefix`? -/
def isRootOrPre : PathComp → Bool
  | .rootDir => true
  | .drivePre _ => true
  | _ => false

/-- Is this component a `Prefix`? -/
def isDrivePre : PathComp → Bool
  | .drivePre _ => true
  | _ => false

/-- `Path::parent`: `None` for the empty path and for paths that terminate
in a root or prefix; otherwise the path without its final component. -/
def parentPath (l : MemPath) : Option MemPath :=
  match l.getLast? with
  | none => none
  | some c => if isRootOrPre c then none else some l.dropLast

/-- `PathBuf::pop`: truncate to `parent`, a no-op when `parent` is `None`
(so `/` and bare prefixes are never popped). -/
def popPath (l : MemPath) : MemPath :=
  match parentPath l with
  | none => l
  | some p => p

/-- `PathBuf::push` of a single component.  Pushing a relative component
appends; pushing `RootDir` replaces everything except a leading prefix;
pushing a `Prefix` replaces the whole path. -/
def pushComp (out : MemPath) : PathComp → MemPath
  | .drivePre s => [.drivePre s]
  | .rootDir => out.takeWhile isDrivePre ++ [.rootDir]
  | c => out ++ [c]

/-- Boolean `Path::starts_with` (whole-component prefix test). -/
def isPrefixOfB : MemPath → MemPath → Bool
  | [], _ => true
  | _ :: _, [] => false
  | a :: as, b :: bs => decide (a = b) && isPrefixOfB as bs

/-- `MemPermissions` (`src/mem/mod.rs`): a `u32` mode. -/
structure MemPermissions where
  mode : Nat
deriving DecidableEq

/-- `InodeType` (`src/mem/inode.rs`). -/
inductive InodeType
  | file
  | dir
  | symlink
deriving DecidableEq

/-- `Inode` (`src/mem/inode.rs`).  The three `SystemTime` fields are
omitted (creation-time snapshots, unused by every claim). -/
structure Inode where
  serial : Nat
  kind : InodeType
  mode : MemPermissions
  path : MemPath
  uid : Nat
  gid : Nat
  size : Nat
  buffer : List Nat
  symlink_target : Option MemPath
deriving DecidableEq

/-- `Inode::new_dir`. -/
def Inode.new_dir (next_inode : Nat) (path : MemPath) : Inode :=
  { serial := next_inode, kind := .dir, mode := ⟨0o755⟩, path := path
    uid := 0, gid := 0, size := 0, buffer := [], symlink_target := none }

/-- `Inode::new_file`. -/
def Inode.new_file (next_inode : Nat) (path : MemPath) (data : List Nat) : Inode :=
  { serial := next_inode, kind := .file, mode := ⟨0o644⟩, path := path
    uid := 0, gid := 0, size := 0, buffer := data, symlink_target := none }

/-- `Inode::new_symlink`. -/
def Inode.new_symlink (next_inode : Nat) (path target : MemPath) : Inode :=
  { serial := next_inode, kind := .symlink, mode := ⟨0o777⟩, path := path
    uid := 0, gid := 0, size := 0, buffer := [], symlink_target := some target }

/-- `Inode::set_len`: sets the advisory `size` field only. -/
def Inode.set_len (i : Inode) (size : Nat) : Inode :=
  { i with size := size }

/-- `Inode::set_permissions`. -/
def Inode.set_permissions (i : Inode) (m : MemPermissions) : Inode :=
  { i with mode := m }

/-- The entry table `MemTree = BTreeMap<PathBuf, Inode>`, as an association
list (see header note on ordering). -/
abbrev MemTree := List (MemPath × Inode)

/-- `BTreeMap::get`. -/
def tget : MemTree → MemPath → Option Inode
  | [], _ => none
  | e :: rest, p => if e.1 = p then some e.2 else tget rest p

/-- `BTreeMap::contains_key`. -/
def containsKey (fs : MemTree) (p : MemPath) : Bool :=
  (tget fs p).isSome

/-- `BTreeMap::insert` (replaces any previous entry at the key). -/
def tinsert (fs : MemTree) (p : MemPath) (i : Inode) : MemTree :=
  fs.filter (fun e => decide (e.1 ≠ p)) ++ [(p, i)]

/-- `BTreeMap::remove`. -/
def tremove (fs : MemTree) (p : MemPath) : MemTree :=
  fs.filter (fun e => decide (e.1 ≠ p))

/-- In-place mutation of the shared `Inode` behind one key (the source
mutates through `Arc<RwLock<Inode>>` without touching the map structure). -/
def tupdate (fs : MemTree) (p : MemPath) (f : Inode → Inode) : MemTree :=
  fs.map (fun e => if e.1 = p then (e.1, f e.2) else e)

/-- Error kinds used by the operations under study. -/
inductive ErrKind
  | notFound
  | alreadyExists
  | invalidInput
  | other
deriving DecidableEq

/-- Outcome of an operation whose source can panic: `ok`, an error kind,
`panicked` (a Rust `unwrap`/`assert!` failure), or `looped` (the unbounded
symlink-resolution loop of `canonicalize` would never terminate). -/
inductive POut (α : Type)
  | ok (a : α)
  | err (e : ErrKind)
  | panicked
  | looped
deriving DecidableEq

/-- The component walk inside `find_lowest_non_existing_parent`: push each
component onto the accumulated prefix and return the first prefix that is
not a key of the table. -/
def findLowestMissing (fs : MemTree) (acc : MemPath) : List PathComp → Option MemPath
  | [] => none
  | c :: rest =>
    let acc' := acc ++ [c]
    if containsKey fs acc' then findLowestMissing fs acc' rest else some acc'

/-- `MemFloppyDisk::find_lowest_non_existing_parent`: walk the components of
`input.parent()` (if any) and return the first accumulated prefix missing
from the table. -/
def find_lowest_non_existing_parent (fs : MemTree) (input : MemPath) : Option MemPath :=
  match parentPath input with
  | some parent => findLowestMissing fs [] parent
  | none => none

/-- `MemFloppyDisk::make_sure_parent_exists`. -/
def make_sure_parent_exists (fs : MemTree) (path : MemPath) : Except ErrKind Unit :=
  match find_lowest_non_existing_parent fs path with
  | some _ => .error .notFound
  | none => .ok ()

/-- `MemFloppyDisk::make_sure_path_exists`. -/
def make_sure_path_exists (fs : MemTree) (path : MemPath) : Except ErrKind Unit :=
  match find_lowest_non_existing_parent fs path with
  | some _ => .error .notFound
  | none => if containsKey fs path then .ok () else .error .notFound

/-- `MemFloppyDisk::make_sure_path_doesnt_exist`. -/
def make_sure_path_doesnt_exist (fs : MemTree) (path : MemPath) : Except ErrKind Unit :=
  match find_lowest_non_existing_parent fs path with
  | some _ => .error .notFound
  | none => if containsKey fs path then .error .alreadyExists else .ok ()

/-- `MemFloppyDisk`: the serial counter and the entry table. -/
structure MemFloppyDisk where
  inode_serial : Nat
  fs : MemTree
deriving DecidableEq

/-- `MemFloppyDisk::new`: root directory `/` with serial 0, counter at 1. -/
def MemFloppyDisk.new : MemFloppyDisk :=
  { inode_serial := 1, fs := [([PathComp.rootDir], Inode.new_dir 0 [PathComp.rootDir])] }

/-- `MemFloppyDisk::get_next_inode_serial`: increment (wrapping `u64`) and
return the new value. -/
def get_next_inode_serial (st : MemFloppyDisk) : Nat × MemFloppyDisk :=
  let s := (st.inode_serial + 1) % 2 ^ 64
  (s, { st with inode_serial := s })

/-- `MemFloppyDisk::create_dir`. -/
def MemFloppyDisk.create_dir (st : MemFloppyDisk) (path : MemPath) :
    Except ErrKind MemFloppyDisk :=
  match make_sure_path_doesnt_exist st.fs path with
  | .error e => .error e
  | .ok _ =>
    let (serial, st') := get_next_inode_serial st
    .ok { st' with fs := tinsert st'.fs path (Inode.new_dir serial path) }

/-- The `while let Some(p) = find_lowest_non_existing_parent(path)` loop of
`MemFloppyDisk::create_dir_all`, followed by the final `create_dir(path)`.
Returns the state reached (mutations before a failure persist, as in the
source, where `?` aborts with `self` already updated), the error if any, and
the list of paths passed to `create_dir`, in call order.

The loop is modelled with explicit fuel.  Each successful iteration inserts
the lowest missing prefix of `path.parent()`, and prefixes already present
stay present, so the loop runs at most `path.length - 1` times before the
final `create_dir`; the fuel `path.length + 1` supplied below therefore
never reaches the `0` case, which exists only to make the recursion
structural. -/
def createDirAllAux : Nat → MemFloppyDisk → MemPath →
    MemFloppyDisk × Option ErrKind × List MemPath
  | 0, st, _ => (st, some ErrKind.other, [])
  | fuel + 1, st, path =>
    match find_lowest_non_existing_parent st.fs path with
    | none =>
      match st.create_dir path with
      | .ok st' => (st', none, [path])
      | .error e => (st, some e, [path])
    | some p =>
      match st.create_dir p with
      | .error e => (st, some e, [p])
      | .ok st' =>
        let r := createDirAllAux fuel st' path
        (r.1, r.2.1, p :: r.2.2)

/-- `MemFloppyDisk::create_dir_all`. -/
def MemFloppyDisk.create_dir_all (st : MemFloppyDisk) (path : MemPath) :
    Except ErrKind MemFloppyDisk :=
  match createDirAllAux (path.length + 1) st path with
  | (st', none, _) => .ok st'
  | (_, some e, _) => .error e

/-- `MemFloppyDisk::write`: parent-exists guard, fresh serial, insert a
brand-new `File` inode replacing any previous entry at the key. -/
def MemFloppyDisk.write (st : MemFloppyDisk) (path : MemPath) (contents : List Nat) :
    Except ErrKind MemFloppyDisk :=
  match make_sure_parent_exists st.fs path with
  | .error e => .error e
  | .ok _ =>
    let (serial, st') := get_next_inode_serial st
    .ok { st' with fs := tinsert st'.fs path (Inode.new_file serial path contents) }

/-- `MemFloppyDisk::read`.  The source `fs.get(path).unwrap()` follows the
exists-guard, which has just checked `contains_key`; the `none` branch
models the (unreachable) unwrap panic. -/
def MemFloppyDisk.read (st : MemFloppyDisk) (path : MemPath) : POut (List Nat) :=
  match make_sure_path_exists st.fs path with
  | .error e => .err e
  | .ok _ =>
    match tget st.fs path with
    | none => .panicked
    | some i => if i.kind = InodeType.file then .ok i.buffer else .err .invalidInput

/-- `MemFloppyDisk::metadata` (the returned `MemMetadata` is just a handle
on the inode, so the inode itself is returned). -/
def MemFloppyDisk.metadata (st : MemFloppyDisk) (path : MemPath) : POut Inode :=
  match make_sure_path_exists st.fs path with
  | .error e => .err e
  | .ok _ =>
    match tget st.fs path with
    | none => .panicked
    | some i => .ok i

/-- The `read_dir` scan: every entry whose key starts with `path` and has
exactly one more component. -/
def readDirScan (fs : MemTree) (path : MemPath) : List Inode :=
  (fs.filter (fun e => isPrefixOfB path e.1 && decide (e.1.length = path.length + 1))).map
    Prod.snd

/-- `MemFloppyDisk::remove_file`: exists-guard, then remove the single key.
No kind check.  The source unwraps the removed value; the guard just
established `contains_key`, so that unwrap cannot fire. -/
def MemFloppyDisk.remove_file (st : MemFloppyDisk) (path : MemPath) :
    Except ErrKind MemFloppyDisk :=
  match make_sure_path_exists st.fs path with
  | .error e => .error e
  | .ok _ => .ok { st with fs := tremove st.fs path }

/-- `MemFloppyDisk::remove_dir`: exists-guard, then remove the key iff the
`read_dir` scan finds no children, else `InvalidInput`.  No kind check.
(`self.read_dir(path)` re-runs the same exists-guard, which passes again.) -/
def MemFloppyDisk.remove_dir (st : MemFloppyDisk) (path : MemPath) :
    Except ErrKind MemFloppyDisk :=
  match make_sure_path_exists st.fs path with
  | .error e => .error e
  | .ok _ =>
    if (readDirScan st.fs path).isEmpty then .ok { st with fs := tremove st.fs path }
    else .error .invalidInput

/-- `MemFloppyDisk::remove_dir_all`: exists-guard, then remove every key
that starts with `path` (including `path` itself). -/
def MemFloppyDisk.remove_dir_all (st : MemFloppyDisk) (path : MemPath) :
    Except ErrKind MemFloppyDisk :=
  match make_sure_path_exists st.fs path with
  | .error e => .error e
  | .ok _ => .ok { st with fs := st.fs.filter (fun e => !isPrefixOfB path e.1) }

/-- `MemFloppyDisk::symlink`: src must exist, dst must not; insert a
`Symlink` inode at `dst` whose target is `src` exactly as given. -/
def MemFloppyDisk.symlink (st : MemFloppyDisk) (src dst : MemPath) :
    Except ErrKind MemFloppyDisk :=
  match make_sure_path_exists st.fs src with
  | .error e => .error e
  | .ok _ =>
    match make_sure_path_doesnt_exist st.fs dst with
    | .error e => .error e
    | .ok _ =>
      let (serial, st') := get_next_inode_serial st
      .ok { st' with fs := tinsert st'.fs dst (Inode.new_symlink serial dst src) }

/-- `MemFloppyDisk::read_link`: exists-guard; `InvalidInput` unless the
entry is a symlink; `assert!(target.is_some())` models as a panic; returns
the stored target verbatim. -/
def MemFloppyDisk.read_link (st : MemFloppyDisk) (path : MemPath) : POut MemPath :=
  match make_sure_path_exists st.fs path with
  | .error e => .err e
  | .ok _ =>
    match tget st.fs path with
    | none => .panicked
    | some i =>
      if i.kind = InodeType.symlink then
        match i.symlink_target with
        | some t => .ok t
        | none => .panicked
      else .err .invalidInput

/-- `MemFloppyDisk::set_permissions`: exists-guard, then mutate the mode of
the shared inode in place. -/
def MemFloppyDisk.set_permissions (st : MemFloppyDisk) (path : MemPath)
    (perm : MemPermissions) : Except ErrKind MemFloppyDisk :=
  match make_sure_path_exists st.fs path with
  | .error e => .error e
  | .ok _ => .ok { st with fs := tupdate st.fs path (fun i => i.set_permissions perm) }

/-- One step of the normalisation loop in `MemFloppyDisk::canonicalize`:
`Prefix`/`RootDir`/`Normal` are pushed, `CurDir` is ignored, `ParentDir`
calls `out.pop()` when `out` has at least one component. -/
def normStep (out : MemPath) : PathComp → MemPath
  | .curDir => out
  | .parentDir => if 0 < out.length then popPath out else out
  | c => pushComp out c

/-- The component-normalisation pass of `canonicalize` (before symlink
resolution). -/
def normalize (path : List PathComp) : MemPath :=
  path.foldl normStep []

/-- The `while *inode.kind() == Symlink` loop of `canonicalize`:
`assert!(symlink_target.is_some())` and `fs.get(&out).unwrap()` are panics;
the loop has no cycle bound, so exhausting fuel larger than the table (a
revisited key) means the source loops forever (`looped`). -/
def resolveChain (fs : MemTree) : Nat → MemPath → Inode → POut MemPath
  | 0, out, i =>
    if i.kind = InodeType.symlink then
      match i.symlink_target with
      | none => .panicked
      | some target =>
        match tget fs target with
        | none => .panicked
        | some _ => .looped
    else .ok out
  | fuel + 1, out, i =>
    if i.kind = InodeType.symlink then
      match i.symlink_target with
      | none => .panicked
      | some target =>
        match tget fs target with
        | none => .panicked
        | some i' => resolveChain fs fuel target i'
    else .ok out

/-- `MemFloppyDisk::canonicalize`: normalise the components, then resolve
symlinks; a missing normalised path is returned as-is (no error). -/
def MemFloppyDisk.canonicalize (st : MemFloppyDisk) (path : MemPath) : POut MemPath :=
  let out := normalize path
  match tget st.fs out with
  | none => .ok out
  | some i => resolveChain st.fs (st.fs.length + 1) out i

/-- UTF-8 validity DFA states (the byte-level acceptor of
`std::str::from_utf8`): `start`, `oneMore`/`twoMore`/`threeMore` pending
continuation bytes, and the four range-restricted second-byte states. -/
inductive Utf8State
  | start
  | oneMore
  | twoMore
  | threeMore
  | twoMoreE0
  | twoMoreED
  | threeMoreF0
  | threeMoreF4
deriving DecidableEq

/-- One byte of the UTF-8 acceptor. -/
def utf8Step : Utf8State → Nat → Option Utf8State
  | .start, b =>
    if b ≤ 0x7F then some .start
    else if 0xC2 ≤ b ∧ b ≤ 0xDF then some .oneMore
    else if b = 0xE0 then some .twoMoreE0
    else if 0xE1 ≤ b ∧ b ≤ 0xEC then some .twoMore
    else if b = 0xED then some .twoMoreED
    else if 0xEE ≤ b ∧ b ≤ 0xEF then some .twoMore
    else if b = 0xF0 then some .threeMoreF0
    else if 0xF1 ≤ b ∧ b ≤ 0xF3 then some .threeMore
    else if b = 0xF4 then some .threeMoreF4
    else none
  | .oneMore, b => if 0x80 ≤ b ∧ b ≤ 0xBF then some .start else none
  | .twoMore, b => if 0x80 ≤ b ∧ b ≤ 0xBF then some .oneMore else none
  | .twoMoreE0, b => if 0xA0 ≤ b ∧ b ≤ 0xBF then some .oneMore else none
  | .twoMoreED, b => if 0x80 ≤ b ∧ b ≤ 0x9F then some .oneMore else none
  | .threeMore, b => if 0x80 ≤ b ∧ b ≤ 0xBF then some .twoMore else none
  | .threeMoreF0, b => if 0x90 ≤ b ∧ b ≤ 0xBF then some .twoMore else none
  | .threeMoreF4, b => if 0x80 ≤ b ∧ b ≤ 0x8F then some .twoMore else none

/-- Run the acceptor. -/
def utf8ValidFrom : Utf8State → List Nat → Bool
  | s, [] => decide (s = .start)
  | s, b :: rest =>
    match utf8Step s b with
    | none => false
    | some s' => utf8ValidFrom s' rest

/-- `std::str::from_utf8(bytes).is_ok()`. -/
def utf8Valid (l : List Nat) : Bool :=
  utf8ValidFrom .start l

/-- `MemFloppyDisk::read_to_string`: exists-guard, then
`from_utf8(buffer).unwrap()` — no kind check, and invalid UTF-8 panics.
A valid buffer is returned as its byte list (a Rust `String` and its UTF-8
bytes determine each other). -/
def MemFloppyDisk.read_to_string (st : MemFloppyDisk) (path : MemPath) :
    POut (List Nat) :=
  match make_sure_path_exists st.fs path with
  | .error e => .err e
  | .ok _ =>
    match tget st.fs path with
    | none => .panicked
    | some i => if utf8Valid i.buffer then .ok i.buffer else .panicked

/-- `MemFile`: an open handle, a shared inode plus a cursor. -/
structure MemFile where
  inode : Inode
  position : Nat
deriving DecidableEq

/-- `Vec::resize(n, fill)`: truncates when `n` is smaller, extends with
`fill` when larger. -/
def listResize (l : List Nat) (n : Nat) (fill : Nat) : List Nat :=
  if n ≤ l.length then l.take n else l ++ List.replicate (n - l.length) fill

/-- `MemFile`'s `AsyncWrite::poll_write`: `buffer.resize(position + len, 0)`
then `buffer[position..position + len].copy_from_slice(buf)`; the cursor
advances by `len`, which is also returned. -/
def MemFile.poll_write (f : MemFile) (buf : List Nat) : MemFile × Nat :=
  let position := f.position
  let len := buf.length
  let buffer := listResize f.inode.buffer (position + len) 0
  let buffer := buffer.take position ++ buf ++ buffer.drop (position + len)
  ({ inode := { f.inode with buffer := buffer }, position := position + len }, len)

/-- `MemFile`'s `AsyncRead::poll_read` with `remaining` free bytes in the
destination: at or past end-of-buffer reads zero bytes; otherwise copies
`min(remaining, buffer.len() - position)` bytes and advances the cursor. -/
def MemFile.poll_read (f : MemFile) (remaining : Nat) : List Nat × MemFile :=
  let buffer := f.inode.buffer
  let position := f.position
  if buffer.length ≤ position then ([], f)
  else
    let e := min (position + remaining) buffer.length
    let slice := (buffer.drop position).take (e - position)
    (slice, { f with position := position + slice.length })

/-- `MemFile::set_len`: delegates to `Inode::set_len` on the shared inode. -/
def MemFile.set_len (f : MemFile) (size : Nat) : MemFile :=
  { f with inode := f.inode.set_len size }

/-- The mutating table-level operations considered by the invariant claim
(read-only operations never change the table). -/
inductive MemOp
  | createDir (p : MemPath)
  | createDirAll (p : MemPath)
  | writeOp (p : MemPath) (contents : List Nat)
  | symlinkOp (src dst : MemPath)
  | removeDir (p : MemPath)
  | removeDirAll (p : MemPath)
  | setPerms (p : MemPath) (perm : MemPermissions)

/-- Keep the new state on success, the old one on failure (the guards of
these operations fail before any mutation). -/
def orKeep (st : MemFloppyDisk) : Except ErrKind MemFloppyDisk → MemFloppyDisk
  | .ok st' => st'
  | .error _ => st

/-- Run one public operation (`create_dir_all` keeps its partial state on
failure, as in the source). -/
def stepOp (st : MemFloppyDisk) : MemOp → MemFloppyDisk
  | .createDir p => orKeep st (st.create_dir p)
  | .createDirAll p => (createDirAllAux (p.length + 1) st p).1
  | .writeOp p contents => orKeep st (st.write p contents)
  | .symlinkOp src dst => orKeep st (st.symlink src dst)
  | .removeDir p => orKeep st (st.remove_dir p)
  | .removeDirAll p => orKeep st (st.remove_dir_all p)
  | .setPerms p perm => orKeep st (st.set_permissions p perm)

/-- Run a sequence of public operations from a state. -/
def runOps (st : MemFloppyDisk) (ops : List MemOp) : MemFloppyDisk :=
  ops.foldl stepOp st

/-- The ancestor-presence invariant: for every key of the table, the
`find_lowest_non_existing_parent` walk finds nothing missing, i.e. every
accumulated prefix of the key's parent is itself a key. -/
def tableClosed (fs : MemTree) : Prop :=
  ∀ p, containsKey fs p = true → find_lowest_non_existing_parent fs p = none

/-! ### Lemmas about the table primitives -/

theorem tget_some_mem {fs : MemTree} {p : MemPath} {i : Inode}
    (h : tget fs p = some i) : (p, i) ∈ fs := by
  induction fs with
  | nil => simp [tget] at h
  | cons e rest ih =>
    obtain ⟨e1, e2⟩ := e
    by_cases he : e1 = p
    · rw [tget, if_pos he] at h
      injection h with h2
      subst he h2
      exact List.mem_cons_self _ _
    · rw [tget, if_neg he] at h
      exact List.mem_cons_of_mem _ (ih h)

theorem tget_append_none {l₁ l₂ : MemTree} {p : MemPath}
    (h : tget l₁ p = none) : tget (l₁ ++ l₂) p = tget l₂ p := by
  induction l₁ with
  | nil => rfl
  | cons e rest ih =>
    by_cases he : e.1 = p
    · rw [tget, if_pos he] at h; cases h
    · rw [tget, if_neg he] at h; rw [List.cons_append, tget, if_neg he]; exact ih h

theorem tget_append_some {l₁ l₂ : MemTree} {p : MemPath} {i : Inode}
    (h : tget l₁ p = some i) : tget (l₁ ++ l₂) p = some i := by
  induction l₁ with
  | nil => simp [tget] at h
  | cons e rest ih =>
    by_cases he : e.1 = p
    · rw [tget, if_pos he] at h; rw [List.cons_append, tget, if_pos he]; exact h
    · rw [tget, if_neg he] at h; rw [List.cons_append, tget, if_neg he]; exact ih h

theorem tget_filterKey (P : MemPath → Bool) (fs : MemTree) (p : MemPath) :
    tget (fs.filter (fun e => P e.1)) p = if P p then tget fs p else none := by
  induction fs with
  | nil => cases hP : P p <;> simp [tget]
  | cons e rest ih =>
    rw [List.filter_cons]
    by_cases he : e.1 = p
    · subst he
      cases hP : P e.1 <;> simp [tget, hP, ih]
    · cases hP : P e.1 <;> simp [tget, hP, he, ih]

theorem tget_tinsert_self (fs : MemTree) (p : MemPath) (i : Inode) :
    tget (tinsert fs p i) p = some i := by
  unfold tinsert
  rw [tget_append_none]
  · rw [tget, if_pos rfl]
  · rw [tget_filterKey (fun k => decide (k ≠ p)), if_neg (by simp)]

theorem tget_tinsert_ne {q p : MemPath} (fs : MemTree) (i : Inode) (h : q ≠ p) :
    tget (tinsert fs p i) q = tget fs q := by
  unfold tinsert
  cases hq : tget fs q with
  | some j =>
    rw [tget_append_some]
    rw [tget_filterKey (fun k => decide (k ≠ p)), if_pos (by simpa using h)]
    exact hq
  | none =>
    rw [tget_append_none]
    · rw [tget, if_neg (fun hc => h hc.symm)]; rfl
    · rw [tget_filterKey (fun k => decide (k ≠ p)), if_pos (by simpa using h)]
      exact hq

theorem contains_tinsert (fs : MemTree) (p q : MemPath) (i : Inode) :
    containsKey (tinsert fs p i) q = true ↔ (q = p ∨ containsKey fs q = true) := by
  by_cases h : q = p
  · subst h
    simp [containsKey, tget_tinsert_self]
  · rw [containsKey, tget_tinsert_ne fs i h]
    simp [containsKey, h]

theorem contains_tinsert_of {fs : MemTree} {p q : MemPath} {i : Inode}
    (h : containsKey fs q = true) : containsKey (tinsert fs p i) q = true :=
  (contains_tinsert fs p q i).2 (.inr h)

theorem tget_tupdate (fs : MemTree) (p : MemPath) (f : Inode → Inode) (q : MemPath) :
    tget (tupdate fs p f) q = if q = p then (tget fs q).map f else tget fs q := by
  induction fs with
  | nil => cases h : decide (q = p) <;> simp_all [tget, tupdate]
  | cons e rest ih =>
    unfold tupdate at ih ⊢
    rw [List.map_cons]
    by_cases hep : e.1 = p
    · rw [if_pos hep]
      by_cases heq : e.1 = q
      · have hqp : q = p := heq.symm.trans hep
        simp [tget, heq, hqp]
      · simp [tget, heq, ih]
    · rw [if_neg hep]
      by_cases heq : e.1 = q
      · have hqp : ¬(q = p) := fun hq => hep (heq.trans hq)
        simp [tget, heq, hqp]
      · simp [tget, heq, ih]

theorem contains_tupdate (fs : MemTree) (p : MemPath) (f : Inode → Inode) (q : MemPath) :
    containsKey (tupdate fs p f) q = containsKey fs q := by
  simp only [containsKey, tget_tupdate]
  by_cases h : q = p
  · rw [if_pos h]; cases tget fs q <;> rfl
  · rw [if_neg h]

theorem isPrefixOfB_iff : ∀ (l₁ l₂ : MemPath), isPrefixOfB l₁ l₂ = true ↔ l₁ <+: l₂
  | [], l₂ => by simp [isPrefixOfB]
  | a :: as, [] => by simp [isPrefixOfB]
  | a :: as, b :: bs => by
    rw [isPrefixOfB, List.cons_prefix_cons, Bool.and_eq_true, decide_eq_true_eq,
      isPrefixOfB_iff as bs]

/-! ### Lemmas about `parentPath` and the guard walk -/

theorem parentPath_eq_some {p par : MemPath} (h : parentPath p = some par) :
    par = p.dropLast ∧ p ≠ [] := by
  unfold parentPath at h
  split at h
  · cases h
  · next c hl =>
    split at h
    · cases h
    · injection h with h
      refine ⟨h.symm, ?_⟩
      rintro rfl
      simp at hl

theorem flm_none_iff (fs : MemTree) (acc : MemPath) (cs : List PathComp) :
    findLowestMissing fs acc cs = none ↔
      ∀ es, es ≠ [] → es <+: cs → containsKey fs (acc ++ es) = true := by
  induction cs generalizing acc with
  | nil =>
    simp only [findLowestMissing, true_iff]
    intro es hne hpre
    exact absurd (List.prefix_nil.1 hpre) hne
  | cons c rest ih =>
    have hstep : ∀ es' : List PathComp, acc ++ c :: es' = (acc ++ [c]) ++ es' := by
      intro es'; simp
    simp only [findLowestMissing]
    by_cases hc : containsKey fs (acc ++ [c]) = true
    · rw [if_pos hc, ih]
      constructor
      · intro h es hne hpre
        match es, hne with
        | e :: es', _ =>
          obtain ⟨rfl, hpre'⟩ := List.cons_prefix_cons.1 hpre
          match es' with
          | [] => exact hc
          | e' :: es'' =>
            rw [hstep]
            exact h (e' :: es'') (by simp) hpre'
      · intro h es' hne' hpre'
        rw [← hstep]
        exact h (c :: es') (by simp) (List.cons_prefix_cons.2 ⟨rfl, hpre'⟩)
    · rw [if_neg hc]
      simp only [reduceCtorEq, false_iff, not_forall]
      exact ⟨[c], by simp, ⟨rest, rfl⟩, by simpa using hc⟩

theorem flm_some_spec {fs : MemTree} {acc : MemPath} {cs : List PathComp} {r : MemPath}
    (h : findLowestMissing fs acc cs = some r) :
    containsKey fs r = false ∧
    (∃ ds, ds ≠ [] ∧ ds <+: cs ∧ r = acc ++ ds) ∧
    (∀ es, es ≠ [] → acc ++ es ≠ r → (acc ++ es) <+: r → containsKey fs (acc ++ es) = true) := by
  induction cs generalizing acc with
  | nil => simp [findLowestMissing] at h
  | cons c rest ih =>
    have hstep : ∀ es' : List PathComp, acc ++ c :: es' = (acc ++ [c]) ++ es' := by
      intro es'; simp
    simp only [findLowestMissing] at h
    by_cases hc : containsKey fs (acc ++ [c]) = true
    · rw [if_pos hc] at h
      obtain ⟨h1, ⟨ds, hds1, hds2, hds3⟩, h3⟩ := ih h
      refine ⟨h1, ⟨c :: ds, by simp, List.cons_prefix_cons.2 ⟨rfl, hds2⟩, by
        simp [hds3]⟩, ?_⟩
      intro es hne hnr hpre
      match es, hne with
      | e :: es', _ =>
        have hrform : r = acc ++ c :: ds := by simp [hds3]
        have hpre2 : (acc ++ (e :: es')) <+: (acc ++ (c :: ds)) := hrform ▸ hpre
        obtain ⟨rfl, hpre'⟩ := List.cons_prefix_cons.1
          ((List.prefix_append_right_inj acc).1 hpre2)
        match es' with
        | [] => exact hc
        | e' :: es'' =>
          rw [hstep]
          refine h3 (e' :: es'') (by simp) ?_ ?_
          · rw [← hstep]; exact hnr
          · rw [← hstep]; exact hpre
    · rw [if_neg hc] at h
      injection h with h
      subst h
      refine ⟨by simpa using hc, ⟨[c], by simp, ⟨rest, rfl⟩, rfl⟩, ?_⟩
      intro es hne hnr hpre
      have hes : es <+: [c] := (List.prefix_append_right_inj acc).1 hpre
      match es, hne with
      | e :: es', _ =>
        obtain ⟨rfl, hpre'⟩ := List.cons_prefix_cons.1 hes
        have : es' = [] := List.prefix_nil.1 hpre'
        subst this
        exact absurd rfl hnr

theorem flm_mono {fs fs' : MemTree}
    (hmono : ∀ q, containsKey fs q = true → containsKey fs' q = true)
    (acc : MemPath) (cs : List PathComp)
    (h : findLowestMissing fs acc cs = none) :
    findLowestMissing fs' acc cs = none := by
  rw [flm_none_iff] at h ⊢
  exact fun es h1 h2 => hmono _ (h es h1 h2)

theorem flm_congr {fs fs' : MemTree}
    (hcong : ∀ q, containsKey fs' q = containsKey fs q)
    (acc : MemPath) (cs : List PathComp) :
    findLowestMissing fs' acc cs = findLowestMissing fs acc cs := by
  induction cs generalizing acc with
  | nil => rfl
  | cons c rest ih =>
    simp only [findLowestMissing]
    rw [hcong, ih]

theorem flnep_mono {fs fs' : MemTree} {p : MemPath}
    (hmono : ∀ q, containsKey fs q = true → containsKey fs' q = true)
    (h : find_lowest_non_existing_parent fs p = none) :
    find_lowest_non_existing_parent fs' p = none := by
  unfold find_lowest_non_existing_parent at h ⊢
  cases hp : parentPath p with
  | none => rfl
  | some par => rw [hp] at h; exact flm_mono hmono [] par h

theorem flnep_tinsert_none {fs : MemTree} {p q : MemPath} {i : Inode}
    (h : find_lowest_non_existing_parent fs q = none) :
    find_lowest_non_existing_parent (tinsert fs p i) q = none :=
  flnep_mono (fun _ hq => contains_tinsert_of hq) h

theorem flnep_congr {fs fs' : MemTree} (p : MemPath)
    (hcong : ∀ q, containsKey fs' q = containsKey fs q) :
    find_lowest_non_existing_parent fs' p = find_lowest_non_existing_parent fs p := by
  unfold find_lowest_non_existing_parent
  cases parentPath p with
  | none => rfl
  | some par => exact flm_congr hcong [] par

/-! ### Guard and operation characterisations -/

theorem make_sure_parent_exists_ok {fs : MemTree} {p : MemPath}
    (h : make_sure_parent_exists fs p = .ok ()) :
    find_lowest_non_existing_parent fs p = none := by
  unfold make_sure_parent_exists at h
  cases hf : find_lowest_non_existing_parent fs p with
  | none => rfl
  | some r => rw [hf] at h; cases h

theorem make_sure_path_exists_ok {fs : MemTree} {p : MemPath}
    (h : make_sure_path_exists fs p = .ok ()) :
    find_lowest_non_existing_parent fs p = none ∧ containsKey fs p = true := by
  unfold make_sure_path_exists at h
  cases hf : find_lowest_non_existing_parent fs p with
  | some r => rw [hf] at h; cases h
  | none =>
    rw [hf] at h
    refine ⟨rfl, ?_⟩
    by_cases hc : containsKey fs p = true
    · exact hc
    · rw [if_neg hc] at h; cases h

theorem make_sure_path_doesnt_exist_ok {fs : MemTree} {p : MemPath}
    (h : make_sure_path_doesnt_exist fs p = .ok ()) :
    find_lowest_non_existing_parent fs p = none ∧ containsKey fs p = false := by
  unfold make_sure_path_doesnt_exist at h
  cases hf : find_lowest_non_existing_parent fs p with
  | some r => rw [hf] at h; cases h
  | none =>
    rw [hf] at h
    refine ⟨rfl, ?_⟩
    by_cases hc : containsKey fs p = true
    · rw [if_pos hc] at h; cases h
    · simpa using hc

theorem write_eq {st : MemFloppyDisk} {p : MemPath} (B : List Nat)
    (h : find_lowest_non_existing_parent st.fs p = none) :
    st.write p B = .ok
      { inode_serial := (st.inode_serial + 1) % 2 ^ 64,
        fs := tinsert st.fs p (Inode.new_file ((st.inode_serial + 1) % 2 ^ 64) p B) } := by
  unfold MemFloppyDisk.write make_sure_parent_exists get_next_inode_serial
  rw [h]

theorem create_dir_ok {st st' : MemFloppyDisk} {p : MemPath}
    (h : st.create_dir p = .ok st') :
    find_lowest_non_existing_parent st.fs p = none ∧ containsKey st.fs p = false ∧
      st' = { inode_serial := (st.inode_serial + 1) % 2 ^ 64,
              fs := tinsert st.fs p (Inode.new_dir ((st.inode_serial + 1) % 2 ^ 64) p) } := by
  unfold MemFloppyDisk.create_dir at h
  cases hg : make_sure_path_doesnt_exist st.fs p with
  | error e => rw [hg] at h; cases h
  | ok u =>
    cases u
    obtain ⟨h1, h2⟩ := make_sure_path_doesnt_exist_ok hg
    rw [hg] at h
    have h' : Except.ok (ε := ErrKind)
        { inode_serial := (st.inode_serial + 1) % 2 ^ 64,
          fs := tinsert st.fs p (Inode.new_dir ((st.inode_serial + 1) % 2 ^ 64) p) }
        = Except.ok st' := h
    injection h' with h'
    exact ⟨h1, h2, h'.symm⟩

theorem symlink_eq {st : MemFloppyDisk} {src dst : MemPath}
    (h1 : make_sure_path_exists st.fs src = .ok ())
    (h2 : make_sure_path_doesnt_exist st.fs dst = .ok ()) :
    st.symlink src dst = .ok
      { inode_serial := (st.inode_serial + 1) % 2 ^ 64,
        fs := tinsert st.fs dst
          (Inode.new_symlink ((st.inode_serial + 1) % 2 ^ 64) dst src) } := by
  unfold MemFloppyDisk.symlink get_next_inode_serial
  rw [h1, h2]

theorem symlink_ok {st st' : MemFloppyDisk} {src dst : MemPath}
    (h : st.symlink src dst = .ok st') :
    find_lowest_non_existing_parent st.fs dst = none ∧
      st'.fs = tinsert st.fs dst
        (Inode.new_symlink ((st.inode_serial + 1) % 2 ^ 64) dst src) := by
  unfold MemFloppyDisk.symlink get_next_inode_serial at h
  cases hg1 : make_sure_path_exists st.fs src with
  | error e => rw [hg1] at h; cases h
  | ok u =>
    cases u
    rw [hg1] at h
    cases hg2 : make_sure_path_doesnt_exist st.fs dst with
    | error e => rw [hg2] at h; cases h
    | ok u =>
      cases u
      rw [hg2] at h
      have h' : Except.ok (ε := ErrKind)
          { inode_serial := (st.inode_serial + 1) % 2 ^ 64,
            fs := tinsert st.fs dst
              (Inode.new_symlink ((st.inode_serial + 1) % 2 ^ 64) dst src) }
          = Except.ok st' := h
      injection h' with h'
      exact ⟨(make_sure_path_doesnt_exist_ok hg2).1, by rw [← h']⟩

theorem write_ok {st st' : MemFloppyDisk} {p : MemPath} {B : List Nat}
    (h : st.write p B = .ok st') :
    find_lowest_non_existing_parent st.fs p = none ∧
      st'.fs = tinsert st.fs p (Inode.new_file ((st.inode_serial + 1) % 2 ^ 64) p B) := by
  unfold MemFloppyDisk.write make_sure_parent_exists get_next_inode_serial at h
  cases hf : find_lowest_non_existing_parent st.fs p with
  | some r => rw [hf] at h; cases h
  | none =>
    rw [hf] at h
    have h' : Except.ok (ε := ErrKind)
        { inode_serial := (st.inode_serial + 1) % 2 ^ 64,
          fs := tinsert st.fs p (Inode.new_file ((st.inode_serial + 1) % 2 ^ 64) p B) }
        = Except.ok st' := h
    injection h' with h'
    exact ⟨rfl, by rw [← h']⟩

theorem remove_file_ok {st st' : MemFloppyDisk} {p : MemPath}
    (h : st.remove_file p = .ok st') : st'.fs = tremove st.fs p := by
  unfold MemFloppyDisk.remove_file at h
  cases hg : make_sure_path_exists st.fs p with
  | error e => rw [hg] at h; cases h
  | ok u =>
    cases u
    rw [hg] at h
    have h' : Except.ok (ε := ErrKind) { st with fs := tremove st.fs p } = Except.ok st' := h
    injection h' with h'
    rw [← h']

theorem remove_dir_ok {st st' : MemFloppyDisk} {p : MemPath}
    (h : st.remove_dir p = .ok st') :
    readDirScan st.fs p = [] ∧ st'.fs = tremove st.fs p := by
  unfold MemFloppyDisk.remove_dir at h
  cases hg : make_sure_path_exists st.fs p with
  | error e => rw [hg] at h; cases h
  | ok u =>
    cases u
    rw [hg] at h
    by_cases hs : (readDirScan st.fs p).isEmpty = true
    · rw [if_pos hs] at h
      have h' : Except.ok (ε := ErrKind) { st with fs := tremove st.fs p } = Except.ok st' := h
      injection h' with h'
      exact ⟨List.isEmpty_iff.1 hs, by rw [← h']⟩
    · rw [if_neg hs] at h; cases h

theorem remove_dir_all_ok {st st' : MemFloppyDisk} {p : MemPath}
    (h : st.remove_dir_all p = .ok st') :
    st'.fs = st.fs.filter (fun e => !isPrefixOfB p e.1) := by
  unfold MemFloppyDisk.remove_dir_all at h
  cases hg : make_sure_path_exists st.fs p with
  | error e => rw [hg] at h; cases h
  | ok u =>
    cases u
    rw [hg] at h
    have h' : Except.ok (ε := ErrKind)
        { st with fs := st.fs.filter (fun e => !isPrefixOfB p e.1) } = Except.ok st' := h
    injection h' with h'
    rw [← h']

theorem set_permissions_ok {st st' : MemFloppyDisk} {p : MemPath} {perm : MemPermissions}
    (h : st.set_permissions p perm = .ok st') :
    st'.fs = tupdate st.fs p (fun i => i.set_permissions perm) := by
  unfold MemFloppyDisk.set_permissions at h
  cases hg : make_sure_path_exists st.fs p with
  | error e => rw [hg] at h; cases h
  | ok u =>
    cases u
    rw [hg] at h
    have h' : Except.ok (ε := ErrKind)
        { st with fs := tupdate st.fs p (fun i => i.set_permissions perm) }
        = Except.ok st' := h
    injection h' with h'
    rw [← h']

/-! ### Preservation of the ancestor-presence invariant -/

theorem tableClosed_tinsert {fs : MemTree} {p : MemPath} {i : Inode}
    (hc : tableClosed fs) (hp : find_lowest_non_existing_parent fs p = none) :
    tableClosed (tinsert fs p i) := by
  intro q hq
  rcases (contains_tinsert fs p q i).1 hq with rfl | hqfs
  · exact flnep_tinsert_none hp
  · exact flnep_tinsert_none (hc q hqfs)

theorem contains_tremove {fs : MemTree} {p q : MemPath}
    (hq : containsKey (tremove fs p) q = true) :
    containsKey fs q = true ∧ q ≠ p := by
  unfold tremove at hq
  rw [containsKey, tget_filterKey (fun k => decide (k ≠ p))] at hq
  by_cases hqp : q = p
  · rw [if_neg (by simp [hqp])] at hq; simp at hq
  · rw [if_pos (by simp [hqp])] at hq; exact ⟨hq, hqp⟩

theorem readDirScan_absent {fs : MemTree} {p r : MemPath}
    (hscan : readDirScan fs p = []) (hr : containsKey fs r = true)
    (hpre : p <+: r) (hlen : r.length = p.length + 1) : False := by
  unfold readDirScan at hscan
  have hfil := List.map_eq_nil_iff.1 hscan
  cases hi : tget fs r with
  | none => rw [containsKey, hi] at hr; cases hr
  | some i =>
    have hmem := tget_some_mem hi
    have := List.filter_eq_nil_iff.1 hfil (r, i) hmem
    apply this
    simp only [Bool.and_eq_true, decide_eq_true_eq]
    exact ⟨(isPrefixOfB_iff p r).2 hpre, hlen⟩

theorem tableClosed_tremove_no_children {fs : MemTree} {p : MemPath}
    (hc : tableClosed fs) (hscan : readDirScan fs p = []) :
    tableClosed (tremove fs p) := by
  intro q hq
  obtain ⟨hcq, hqp⟩ := contains_tremove hq
  have hnone := hc q hcq
  unfold find_lowest_non_existing_parent at hnone ⊢
  cases hpar : parentPath q with
  | none => rfl
  | some par =>
    rw [hpar] at hnone
    obtain ⟨hdp, hqnil⟩ := parentPath_eq_some hpar
    rw [flm_none_iff] at hnone ⊢
    intro es hne hpre
    have hcont := hnone es hne hpre
    simp only [List.nil_append] at hcont ⊢
    -- the removed key `p` is not one of the walked prefixes
    have hesp : es ≠ p := by
      rintro rfl
      -- the prefix of `q` one component longer than `es` would be a child of
      -- `p` in the read_dir scan, contradicting the empty scan
      have hespar : es <+: par := hpre
      have hesq : es <+: q := hespar.trans (hdp ▸ List.dropLast_prefix q)
      have hlenpar : es.length ≤ par.length := hespar.length_le
      have hqlen : 0 < q.length := List.length_pos.2 hqnil
      have hparlen : par.length = q.length - 1 := by rw [hdp, List.length_dropLast]
      set r := q.take (es.length + 1) with hrdef
      have hrq : r <+: q := List.take_prefix _ q
      have hrlen : r.length = es.length + 1 := by
        rw [hrdef, List.length_take]
        omega
      have hesr : es <+: r := List.prefix_of_prefix_length_le hesq hrq (by omega)
      have hcr : containsKey fs r = true := by
        by_cases hcase : es.length + 1 = q.length
        · have : r = q := by rw [hrdef, hcase, List.take_length]
          rw [this]; exact hcq
        · have hrpar : r <+: par :=
            List.prefix_of_prefix_length_le hrq (hdp ▸ List.dropLast_prefix q) (by omega)
          have := hnone r (by
            intro hnil
            rw [hnil] at hrlen
            simp at hrlen) hrpar
          simpa using this
      exact readDirScan_absent hscan hcr hesr hrlen
    rw [containsKey, tremove, tget_filterKey (fun k => decide (k ≠ p)),
      if_pos (by simp [hesp])]
    rw [containsKey] at hcont
    exact hcont

theorem tableClosed_filter_not_prefix {fs : MemTree} {p : MemPath}
    (hc : tableClosed fs) :
    tableClosed (fs.filter (fun e => !isPrefixOfB p e.1)) := by
  intro q hq
  rw [containsKey, tget_filterKey (fun k => !isPrefixOfB p k)] at hq
  by_cases hkeep : (!isPrefixOfB p q) = true
  case neg => rw [if_neg hkeep] at hq; cases hq
  rw [if_pos hkeep] at hq
  have hcq : containsKey fs q = true := hq
  have hnone := hc q hcq
  unfold find_lowest_non_existing_parent at hnone ⊢
  cases hpar : parentPath q with
  | none => rfl
  | some par =>
    rw [hpar] at hnone
    obtain ⟨hdp, -⟩ := parentPath_eq_some hpar
    rw [flm_none_iff] at hnone ⊢
    intro es hne hpre
    have hcont := hnone es hne hpre
    simp only [List.nil_append] at hcont ⊢
    have hesq : es <+: q := hpre.trans (hdp ▸ List.dropLast_prefix q)
    have hesnp : ¬(p <+: es) := by
      intro hpes
      have : p <+: q := hpes.trans hesq
      rw [Bool.not_eq_true', Bool.eq_false_iff] at hkeep
      exact hkeep ((isPrefixOfB_iff p q).2 this)
    rw [containsKey, tget_filterKey (fun k => !isPrefixOfB p k),
      if_pos (by
        rw [Bool.not_eq_true']
        exact (Bool.eq_false_iff).2 (fun habs => hesnp ((isPrefixOfB_iff p es).1 habs)))]
    rw [containsKey] at hcont
    exact hcont

theorem tableClosed_tupdate {fs : MemTree} {p : MemPath} {f : Inode → Inode}
    (hc : tableClosed fs) : tableClosed (tupdate fs p f) := by
  intro q hq
  rw [contains_tupdate] at hq
  rw [flnep_congr q (contains_tupdate fs p f)]
  exact hc q hq

theorem tableClosed_create_dir {st st' : MemFloppyDisk} {p : MemPath}
    (hc : tableClosed st.fs) (h : st.create_dir p = .ok st') : tableClosed st'.fs := by
  obtain ⟨h1, -, rfl⟩ := create_dir_ok h
  exact tableClosed_tinsert hc h1

theorem tableClosed_cdaAux : ∀ (n : Nat) (st : MemFloppyDisk) (p : MemPath),
    tableClosed st.fs → tableClosed ((createDirAllAux n st p).1).fs := by
  intro n
  induction n with
  | zero => intro st p hc; exact hc
  | succ m ih =>
    intro st p hc
    simp only [createDirAllAux]
    split
    · split
      · next st' hcd => exact tableClosed_create_dir hc hcd
      · next e hcd => exact hc
    · next q hf =>
      split
      · next e hcd => exact hc
      · next st' hcd => exact ih st' p (tableClosed_create_dir hc hcd)

theorem tableClosed_stepOp {st : MemFloppyDisk} (hc : tableClosed st.fs) (op : MemOp) :
    tableClosed (stepOp st op).fs := by
  cases op with
  | createDir p =>
    simp only [stepOp]
    cases h : st.create_dir p with
    | ok st' => exact tableClosed_create_dir hc h
    | error e => exact hc
  | createDirAll p => exact tableClosed_cdaAux _ st p hc
  | writeOp p contents =>
    simp only [stepOp]
    cases h : st.write p contents with
    | ok st' =>
      obtain ⟨h1, h2⟩ := write_ok h
      show tableClosed st'.fs
      rw [h2]
      exact tableClosed_tinsert hc h1
    | error e => exact hc
  | symlinkOp src dst =>
    simp only [stepOp]
    cases h : st.symlink src dst with
    | ok st' =>
      obtain ⟨h1, h2⟩ := symlink_ok h
      show tableClosed st'.fs
      rw [h2]
      exact tableClosed_tinsert hc h1
    | error e => exact hc
  | removeDir p =>
    simp only [stepOp]
    cases h : st.remove_dir p with
    | ok st' =>
      obtain ⟨h1, h2⟩ := remove_dir_ok h
      show tableClosed st'.fs
      rw [h2]
      exact tableClosed_tremove_no_children hc h1
    | error e => exact hc
  | removeDirAll p =>
    simp only [stepOp]
    cases h : st.remove_dir_all p with
    | ok st' =>
      show tableClosed st'.fs
      rw [remove_dir_all_ok h]
      exact tableClosed_filter_not_prefix hc
    | error e => exact hc
  | setPerms p perm =>
    simp only [stepOp]
    cases h : st.set_permissions p perm with
    | ok st' =>
      show tableClosed st'.fs
      rw [set_permissions_ok h]
      exact tableClosed_tupdate hc
    | error e => exact hc

theorem tableClosed_new : tableClosed MemFloppyDisk.new.fs := by
  intro p hp
  have hroot : p = [PathComp.rootDir] := by
    by_cases h : [PathComp.rootDir] = p
    · exact h.symm
    · rw [MemFloppyDisk.new, containsKey] at hp
      simp only [tget, if_neg h] at hp
      cases hp
  subst hroot
  rfl

theorem tableClosed_runOps : ∀ (ops : List MemOp) (st : MemFloppyDisk),
    tableClosed st.fs → tableClosed (runOps st ops).fs := by
  intro ops
  induction ops with
  | nil => intro st hc; exact hc
  | cons op rest ih => intro st hc; exact ih _ (tableClosed_stepOp hc op)

/-! ### Order of directory creations inside `create_dir_all` -/

theorem flnep_some_spec {fs : MemTree} {p r : MemPath}
    (h : find_lowest_non_existing_parent fs p = some r) :
    ∃ par, parentPath p = some par ∧ r ≠ [] ∧ r <+: par ∧ containsKey fs r = false ∧
      ∀ q, q ≠ [] → q ≠ r → q <+: r → containsKey fs q = true := by
  unfold find_lowest_non_existing_parent at h
  cases hp : parentPath p with
  | none => rw [hp] at h; cases h
  | some par =>
    rw [hp] at h
    obtain ⟨h1, ⟨ds, hds1, hds2, hds3⟩, h3⟩ := flm_some_spec h
    simp only [List.nil_append] at hds3 h3
    subst hds3
    exact ⟨par, rfl, hds1, hds2, h1, h3⟩

theorem flnep_some_proper {fs : MemTree} {p r : MemPath}
    (h : find_lowest_non_existing_parent fs p = some r) : r ≠ p ∧ r <+: p := by
  obtain ⟨par, hpar, hne, hpre, -, -⟩ := flnep_some_spec h
  obtain ⟨hdp, hpnil⟩ := parentPath_eq_some hpar
  subst hdp
  constructor
  · intro hrp
    have h1 := hpre.length_le
    rw [List.length_dropLast] at h1
    have h2 : 0 < p.length := List.length_pos.2 hpnil
    rw [hrp] at h1
    omega
  · exact hpre.trans (List.dropLast_prefix p)

theorem flnep_some_after_insert {fs : MemTree} {p r r' : MemPath} {i : Inode}
    (h1 : find_lowest_non_existing_parent fs p = some r)
    (h2 : find_lowest_non_existing_parent (tinsert fs r i) p = some r') :
    r ≠ r' ∧ r <+: r' := by
  obtain ⟨par, hpar, hr0, hrpre, hrmiss, hrmin⟩ := flnep_some_spec h1
  obtain ⟨par2, hpar2, hr0', hrpre', hrmiss', hrmin'⟩ := flnep_some_spec h2
  rw [hpar] at hpar2
  injection hpar2 with e
  subst e
  have hne : r' ≠ r := by
    rintro rfl
    have hct : containsKey (tinsert fs r' i) r' = true :=
      (contains_tinsert fs r' r' i).2 (Or.inl rfl)
    rw [hrmiss'] at hct
    cases hct
  have hmissfs : containsKey fs r' = false := by
    cases hcc : containsKey fs r' with
    | false => rfl
    | true =>
      have := contains_tinsert_of (p := r) (i := i) hcc
      rw [hrmiss'] at this
      cases this
  rcases List.prefix_or_prefix_of_prefix hrpre hrpre' with hpq | hqp
  · exact ⟨fun e => hne e.symm, hpq⟩
  · exfalso
    have := hrmin r' hr0' hne hqp
    rw [hmissfs] at this
    cases this

theorem cda_calls_head {n : Nat} {st : MemFloppyDisk} {p b : MemPath}
    (hb : ((createDirAllAux n st p).2.2).head? = some b) :
    b = p ∨ find_lowest_non_existing_parent st.fs p = some b := by
  cases n with
  | zero => simp [createDirAllAux] at hb
  | succ m =>
    simp only [createDirAllAux] at hb
    split at hb
    · split at hb
      · injection hb with hb
        exact .inl hb.symm
      · injection hb with hb
        exact .inl hb.symm
    · next q hf =>
      split at hb
      · injection hb with hb
        exact .inr (hb ▸ hf)
      · injection hb with hb
        exact .inr (hb ▸ hf)

theorem cda_calls_chain : ∀ (n : Nat) (st : MemFloppyDisk) (p : MemPath),
    List.Chain' (fun a b => a ≠ b ∧ a <+: b) (createDirAllAux n st p).2.2 := by
  intro n
  induction n with
  | zero => intro st p; simp [createDirAllAux]
  | succ m ih =>
    intro st p
    simp only [createDirAllAux]
    split
    · split
      · exact List.chain'_singleton _
      · exact List.chain'_singleton _
    · next q hf =>
      split
      · exact List.chain'_singleton _
      · next st' hcd =>
        show List.Chain' _ (q :: (createDirAllAux m st' p).2.2)
        refine List.chain'_cons'.2 ⟨?_, ih st' p⟩
        intro b hb
        rw [Option.mem_def] at hb
        rcases cda_calls_head hb with rfl | hbf
        · exact flnep_some_proper hf
        · obtain ⟨-, -, hst'⟩ := create_dir_ok hcd
          subst hst'
          exact flnep_some_after_insert hf hbf

/-! ### Success-path helpers for the read-side operations -/

theorem make_sure_path_exists_eq_ok {fs : MemTree} {p : MemPath}
    (h1 : find_lowest_non_existing_parent fs p = none)
    (h2 : containsKey fs p = true) :
    make_sure_path_exists fs p = .ok () := by
  unfold make_sure_path_exists
  rw [h1, h2]
  rfl

theorem make_sure_path_exists_congr {fs fs' : MemTree} (p : MemPath)
    (hcong : ∀ q, containsKey fs' q = containsKey fs q) :
    make_sure_path_exists fs' p = make_sure_path_exists fs p := by
  unfold make_sure_path_exists
  rw [flnep_congr p hcong, hcong p]

theorem read_of_file {st : MemFloppyDisk} {P : MemPath} {i : Inode}
    (hok : make_sure_path_exists st.fs P = .ok ())
    (hget : tget st.fs P = some i) (hkind : i.kind = InodeType.file) :
    st.read P = POut.ok i.buffer := by
  unfold MemFloppyDisk.read
  rw [hok, hget]
  show (if i.kind = InodeType.file then POut.ok i.buffer else POut.err ErrKind.invalidInput)
    = POut.ok i.buffer
  rw [if_pos hkind]

theorem read_link_of_symlink {st : MemFloppyDisk} {P t : MemPath} {i : Inode}
    (hok : make_sure_path_exists st.fs P = .ok ())
    (hget : tget st.fs P = some i) (hkind : i.kind = InodeType.symlink)
    (htarget : i.symlink_target = some t) :
    st.read_link P = POut.ok t := by
  unfold MemFloppyDisk.read_link
  rw [hok, hget]
  show (if i.kind = InodeType.symlink then
      (match i.symlink_target with
        | some t => POut.ok t
        | none => POut.panicked)
    else POut.err ErrKind.invalidInput) = POut.ok t
  rw [if_pos hkind, htarget]

/-! ### Concrete paths and states used by witnesses and counterexamples -/

/-- The path `/a`. -/
def pa : MemPath := [PathComp.rootDir, PathComp.normal "a"]

/-- The path `/a/b`. -/
def pab : MemPath := [PathComp.rootDir, PathComp.normal "a", PathComp.normal "b"]

/-- The path `/a/b/c`. -/
def pabc : MemPath :=
  [PathComp.rootDir, PathComp.normal "a", PathComp.normal "b", PathComp.normal "c"]

/-- The path `/f`. -/
def pf : MemPath := [PathComp.rootDir, PathComp.normal "f"]

/-- The path `/f/g`. -/
def pfg : MemPath := [PathComp.rootDir, PathComp.normal "f", PathComp.normal "g"]

/-- The path `/d`. -/
def pd : MemPath := [PathComp.rootDir, PathComp.normal "d"]

/-- A fresh filesystem after `write("/f", [])` then `write("/f/g", [])`:
the second write's guard only checks that `/` and `/f` are keys, not that
`/f` is a directory. -/
def fileUnderFileState : MemFloppyDisk :=
  runOps MemFloppyDisk.new [MemOp.writeOp pf [], MemOp.writeOp pfg []]

/-- A reachable state with a dangling symlink: `write("/f", _)`,
`symlink("/f", "/a")`, then `remove_file("/f")`. -/
def danglingState : MemFloppyDisk :=
  orKeep (runOps MemFloppyDisk.new [MemOp.writeOp pf [], MemOp.symlinkOp pf pa])
    ((runOps MemFloppyDisk.new [MemOp.writeOp pf [], MemOp.symlinkOp pf pa]).remove_file pf)

/-- A fresh filesystem holding one file `/f` with bytes `[7, 8]`. -/
def stWithFile : MemFloppyDisk := runOps MemFloppyDisk.new [MemOp.writeOp pf [7, 8]]

/-- The inode that `stWithFile` holds at `/f`. -/
def fileInode : Inode := Inode.new_file 2 pf [7, 8]

/-- A fresh filesystem holding a childless directory `/d` and a file `/f`. -/
def stDirAndFile : MemFloppyDisk :=
  runOps MemFloppyDisk.new [MemOp.createDir pd, MemOp.writeOp pf []]

/-! ### Claim theorems -/

/-- Claim C1: for every path `P` whose parent directory chain is present in
the Entry Table (the write guard `find_lowest_non_existing_parent` reports
nothing missing) and every byte sequence `B`, `write(P, B)` followed by
`read(P)` returns exactly `B`; the write inserts a brand-new `File` entry
carrying the freshly incremented serial, fully replacing any prior entry at
that key and leaving every other key untouched. -/
theorem write_read_roundtrip (st : MemFloppyDisk) (P : MemPath) (B : List Nat)
    (h : find_lowest_non_existing_parent st.fs P = none) :
    ∃ st', st.write P B = .ok st' ∧
      st'.read P = POut.ok B ∧
      st'.inode_serial = (st.inode_serial + 1) % 2 ^ 64 ∧
      tget st'.fs P = some (Inode.new_file st'.inode_serial P B) ∧
      ∀ q, q ≠ P → tget st'.fs q = tget st.fs q := by
  have hcontains : containsKey
      (tinsert st.fs P (Inode.new_file ((st.inode_serial + 1) % 2 ^ 64) P B)) P
      = true := by
    rw [containsKey, tget_tinsert_self]
    rfl
  refine ⟨{ inode_serial := (st.inode_serial + 1) % 2 ^ 64,
            fs := tinsert st.fs P
              (Inode.new_file ((st.inode_serial + 1) % 2 ^ 64) P B) },
          write_eq B h, ?_, rfl, ?_, ?_⟩
  · exact @read_of_file
      { inode_serial := (st.inode_serial + 1) % 2 ^ 64,
        fs := tinsert st.fs P (Inode.new_file ((st.inode_serial + 1) % 2 ^ 64) P B) }
      P (Inode.new_file ((st.inode_serial + 1) % 2 ^ 64) P B)
      (make_sure_path_exists_eq_ok (flnep_tinsert_none h) hcontains)
      (tget_tinsert_self _ _ _) rfl
  · exact tget_tinsert_self _ _ _
  · intro q hq
    exact tget_tinsert_ne _ _ hq

/-- Witness for C1 at `P = /f`, `B = [1, 2, 3]` on a fresh filesystem. -/
theorem write_read_roundtrip_witness :
    ∃ st', MemFloppyDisk.new.write pf [1, 2, 3] = .ok st' ∧
      st'.read pf = POut.ok [1, 2, 3] ∧
      st'.inode_serial = (MemFloppyDisk.new.inode_serial + 1) % 2 ^ 64 ∧
      tget st'.fs pf = some (Inode.new_file st'.inode_serial pf [1, 2, 3]) ∧
      ∀ q, q ≠ pf → tget st'.fs q = tget MemFloppyDisk.new.fs q :=
  write_read_roundtrip MemFloppyDisk.new pf [1, 2, 3] (by decide)

/-- Claim C2 is false as stated: after the public operations `write("/f")`
then `write("/f/g")` from a fresh filesystem, the non-root path `/f/g` is
present while its ancestor `/f` is present as a `File` entry, not a
`Directory` entry (the write guard checks only key presence, never kind). -/
theorem ancestor_directory_invariant_counterexample :
    containsKey fileUnderFileState.fs pfg = true ∧
    (tget fileUnderFileState.fs pf).map Inode.kind = some InodeType.file := by decide

/-- Claim C2 (amended): after any sequence of `create_dir`,
`create_dir_all`, `write`, `symlink`, `remove_dir`, `remove_dir_all` and
`set_permissions` operations from a fresh filesystem, every path present in
the Entry Table has all of its ancestor paths (the prefixes walked by
`find_lowest_non_existing_parent`) also present in the table — as entries
of some kind, not necessarily Directory entries.  Read-only operations do
not change the table; `remove_file`, `rename` and `copy` are excluded
because each can break even this weakened invariant (orphaned descendants,
or an unguarded destination for `copy`). -/
theorem ops_preserve_ancestor_presence (ops : List MemOp) :
    tableClosed (runOps MemFloppyDisk.new ops).fs :=
  tableClosed_runOps ops MemFloppyDisk.new tableClosed_new

/-- Claim C3 is contradicted by the code: `poll_write` calls
`buffer.resize(position + len, 0)` unconditionally, and `Vec::resize` to a
smaller length truncates, so pre-existing bytes at or beyond
`position + len` are destroyed instead of left unchanged.  Writing `[9]`
at position 0 into a buffer `[1, 2, 3, 4, 5]` leaves `[9]`, not the
`[9, 2, 3, 4, 5]` the claim requires. -/
theorem poll_write_truncates_existing_tail :
    (MemFile.poll_write ⟨Inode.new_file 1 pf [1, 2, 3, 4, 5], 0⟩ [9]).1.inode.buffer
      = [9] ∧
    (MemFile.poll_write ⟨Inode.new_file 1 pf [1, 2, 3, 4, 5], 0⟩ [9]).1.position = 1 ∧
    (MemFile.poll_write ⟨Inode.new_file 1 pf [1, 2, 3, 4, 5], 0⟩ [9]).2 = 1 ∧
    (MemFile.poll_write ⟨Inode.new_file 1 pf [1, 2, 3, 4, 5], 0⟩ [9]).1.inode.buffer
      ≠ [9, 2, 3, 4, 5] := by decide

/-- Claim C4 is contradicted by the code: `read_to_string` does
`from_utf8(buffer).unwrap()` with no kind check, so a non-UTF-8 buffer
panics (instead of returning `InvalidData`), a directory entry returns its
empty buffer decoded as `""` (instead of failing with `InvalidInput`), and
only the `NotFound` guard behaves as the claim says. -/
theorem read_to_string_unchecked_behavior :
    (runOps MemFloppyDisk.new [MemOp.writeOp pf [255], MemOp.createDir pd]).read_to_string
      pf = POut.panicked ∧
    (runOps MemFloppyDisk.new [MemOp.writeOp pf [255], MemOp.createDir pd]).read_to_string
      pd = POut.ok [] ∧
    (runOps MemFloppyDisk.new [MemOp.writeOp pf [255], MemOp.createDir pd]).read_to_string
      pab = POut.err ErrKind.notFound := by decide

/-- Claim C5 is contradicted by the code: when a symlink hop names a target
absent from the Entry Table, `canonicalize` hits `fs.get(&out).unwrap()`
and panics rather than returning a `NotFound` error.  The state below is
reached through public operations (`write /f`; `symlink /f → /a`;
`remove_file /f`), leaving `/a` a symlink to the missing `/f`. -/
theorem canonicalize_panics_on_dangling_symlink :
    tget danglingState.fs pa = some (Inode.new_symlink 3 pa pf) ∧
    tget danglingState.fs pf = none ∧
    danglingState.canonicalize pa = POut.panicked := by decide

/-- Claim C6: normalisation walks the components left to right;
`RootDir`/`Prefix`/`Normal` are pushed, `CurDir` is dropped, and
`ParentDir` pops the last pushed component when any component exists and is
otherwise a no-op — where "pop" is `PathBuf::pop`, which never removes a
root (or prefix) component, so `..` at the root is absorbed.  In
particular `/usr/bin/../../../../..` normalises to `/`, `a/.` normalises
to `a`, and leading `..` beyond the root is absorbed without error. -/
theorem normalize_component_rules :
    (∀ (out : MemPath) (s : String), normStep out (.normal s) = out ++ [.normal s]) ∧
    normStep [] .rootDir = [.rootDir] ∧
    (∀ s : String, normStep [] (.drivePre s) = [.drivePre s]) ∧
    (∀ out : MemPath, normStep out .curDir = out) ∧
    (∀ (out : MemPath) (s : String), normStep (out ++ [.normal s]) .parentDir = out) ∧
    normStep [] .parentDir = [] ∧
    normStep [.rootDir] .parentDir = [.rootDir] ∧
    (∀ (cs : List PathComp) (c : PathComp),
      normalize (cs ++ [c]) = normStep (normalize cs) c) ∧
    normalize [.rootDir, .normal "usr", .normal "bin",
      .parentDir, .parentDir, .parentDir, .parentDir, .parentDir] = [.rootDir] ∧
    normalize [.normal "a", .curDir] = [.normal "a"] ∧
    normalize [.rootDir, .parentDir, .parentDir] = [.rootDir] := by
  refine ⟨fun out s => rfl, rfl, fun s => rfl, fun out => rfl, ?_, rfl, by decide, ?_,
    by decide, by decide, by decide⟩
  · intro out s
    simp [normStep, popPath, parentPath, List.getLast?_concat, isRootOrPre,
      List.dropLast_concat]
  · intro cs c
    simp [normalize, List.foldl_concat]

/-- Claim C7: `create_dir_all` creates each missing ancestor shallow-first.
The list of paths passed to `create_dir`, in call order, is always a strict
prefix chain (each call's argument is a proper prefix of the next), so no
ancestor is ever created after any of its descendants; concretely, on a
fresh filesystem `create_dir_all "/a/b/c"` calls `create_dir` on `/a`,
`/a/b`, `/a/b/c` in that order, succeeds, and afterwards `metadata`
succeeds on each of the three paths with a Directory entry. -/
theorem create_dir_all_shallow_first :
    (∀ (n : Nat) (st : MemFloppyDisk) (p : MemPath),
      List.Chain' (fun a b => a ≠ b ∧ a <+: b) (createDirAllAux n st p).2.2) ∧
    (createDirAllAux (pabc.length + 1) MemFloppyDisk.new pabc).2.2 = [pa, pab, pabc] ∧
    MemFloppyDisk.new.create_dir_all pabc
      = .ok (stepOp MemFloppyDisk.new (MemOp.createDirAll pabc)) ∧
    (stepOp MemFloppyDisk.new (MemOp.createDirAll pabc)).metadata pa
      = POut.ok (Inode.new_dir 2 pa) ∧
    (stepOp MemFloppyDisk.new (MemOp.createDirAll pabc)).metadata pab
      = POut.ok (Inode.new_dir 3 pab) ∧
    (stepOp MemFloppyDisk.new (MemOp.createDirAll pabc)).metadata pabc
      = POut.ok (Inode.new_dir 4 pabc) ∧
    (Inode.new_dir 2 pa).kind = InodeType.dir ∧
    (Inode.new_dir 3 pab).kind = InodeType.dir ∧
    (Inode.new_dir 4 pabc).kind = InodeType.dir :=
  ⟨cda_calls_chain, by decide, by decide, by decide, by decide, by decide, rfl, rfl, rfl⟩

/-- Claim C8: for every `src` present in the table (in the sense of the
`require_present` guard, ancestors included) and every `dst` absent (in the
sense of the `require_absent` guard), `symlink(src, dst)` followed by
`read_link(dst)` returns `src` exactly as given — not canonicalised and
not resolved, since the inserted Symlink entry stores `src` verbatim. -/
theorem symlink_read_link_roundtrip (st : MemFloppyDisk) (src dst : MemPath)
    (h1 : make_sure_path_exists st.fs src = .ok ())
    (h2 : make_sure_path_doesnt_exist st.fs dst = .ok ()) :
    ∃ st', st.symlink src dst = .ok st' ∧ st'.read_link dst = POut.ok src := by
  refine ⟨_, symlink_eq h1 h2, ?_⟩
  refine read_link_of_symlink (make_sure_path_exists_eq_ok ?_ ?_)
    (tget_tinsert_self _ _ _) rfl rfl
  · exact flnep_tinsert_none (make_sure_path_doesnt_exist_ok h2).1
  · rw [containsKey, tget_tinsert_self]; rfl

/-- Witness for C8: symlinking `/f → /a` on a filesystem holding `/f`. -/
theorem symlink_read_link_roundtrip_witness :
    ∃ st', (runOps MemFloppyDisk.new [MemOp.writeOp pf []]).symlink pf pa = .ok st' ∧
      st'.read_link pa = POut.ok pf :=
  symlink_read_link_roundtrip (runOps MemFloppyDisk.new [MemOp.writeOp pf []]) pf pa
    (by decide) (by decide)

/-- Claim C9: `set_len(n)` on an open handle updates only the entry's
advisory `size` field — every other inode field, including the byte
buffer, is unchanged — so a subsequent read through the handle
(`poll_read` at any position) or through `read(path)` (after the shared
inode in the table is updated in place) returns the same bytes as before
the call. -/
theorem set_len_frame (st : MemFloppyDisk) (P : MemPath) (i : Inode) (n pos rem : Nat)
    (h : tget st.fs P = some i) :
    (i.set_len n).size = n ∧
    (i.set_len n).buffer = i.buffer ∧
    (i.set_len n).kind = i.kind ∧
    (i.set_len n).serial = i.serial ∧
    (i.set_len n).mode = i.mode ∧
    (i.set_len n).path = i.path ∧
    (i.set_len n).uid = i.uid ∧
    (i.set_len n).gid = i.gid ∧
    (i.set_len n).symlink_target = i.symlink_target ∧
    ((⟨i, pos⟩ : MemFile).set_len n).position = pos ∧
    (MemFile.poll_read ((⟨i, pos⟩ : MemFile).set_len n) rem).1
      = (MemFile.poll_read ⟨i, pos⟩ rem).1 ∧
    (MemFile.poll_read ((⟨i, pos⟩ : MemFile).set_len n) rem).2.position
      = (MemFile.poll_read ⟨i, pos⟩ rem).2.position ∧
    MemFloppyDisk.read { st with fs := tupdate st.fs P (fun j => j.set_len n) } P
      = st.read P := by
  have hpoll :
      (MemFile.poll_read ((⟨i, pos⟩ : MemFile).set_len n) rem).1
        = (MemFile.poll_read ⟨i, pos⟩ rem).1 ∧
      (MemFile.poll_read ((⟨i, pos⟩ : MemFile).set_len n) rem).2.position
        = (MemFile.poll_read ⟨i, pos⟩ rem).2.position := by
    unfold MemFile.poll_read MemFile.set_len Inode.set_len
    by_cases hc : i.buffer.length ≤ pos
    · rw [if_pos hc, if_pos hc]
      exact ⟨rfl, rfl⟩
    · rw [if_neg hc, if_neg hc]
      exact ⟨rfl, rfl⟩
  refine ⟨rfl, rfl, rfl, rfl, rfl, rfl, rfl, rfl, rfl, rfl, hpoll.1, hpoll.2, ?_⟩
  have hcong := contains_tupdate st.fs P (fun j => j.set_len n)
  unfold MemFloppyDisk.read
  rw [make_sure_path_exists_congr P hcong]
  cases hg : make_sure_path_exists st.fs P with
  | error e => rfl
  | ok u =>
    cases u
    have hup : tget (tupdate st.fs P (fun j => j.set_len n)) P = some (i.set_len n) := by
      rw [tget_tupdate, if_pos rfl, h]
      rfl
    rw [hup, h]
    rfl

/-- Witness for C9 on the concrete file `/f = [7, 8]`, `n = 99`, handle at
position 0 reading up to 5 bytes. -/
theorem set_len_frame_witness :
    (fileInode.set_len 99).size = 99 ∧
    (fileInode.set_len 99).buffer = fileInode.buffer ∧
    (fileInode.set_len 99).kind = fileInode.kind ∧
    (fileInode.set_len 99).serial = fileInode.serial ∧
    (fileInode.set_len 99).mode = fileInode.mode ∧
    (fileInode.set_len 99).path = fileInode.path ∧
    (fileInode.set_len 99).uid = fileInode.uid ∧
    (fileInode.set_len 99).gid = fileInode.gid ∧
    (fileInode.set_len 99).symlink_target = fileInode.symlink_target ∧
    ((⟨fileInode, 0⟩ : MemFile).set_len 99).position = 0 ∧
    (MemFile.poll_read ((⟨fileInode, 0⟩ : MemFile).set_len 99) 5).1
      = (MemFile.poll_read ⟨fileInode, 0⟩ 5).1 ∧
    (MemFile.poll_read ((⟨fileInode, 0⟩ : MemFile).set_len 99) 5).2.position
      = (MemFile.poll_read ⟨fileInode, 0⟩ 5).2.position ∧
    MemFloppyDisk.read
      { stWithFile with fs := tupdate stWithFile.fs pf (fun j => j.set_len 99) } pf
      = stWithFile.read pf :=
  set_len_frame stWithFile pf fileInode 99 0 5 (by decide)

/-- Claim C10 is false as stated: with `/f` a File entry and `/f/g` written
beneath it (reachable because the write guard never checks kinds), the
`read_dir` scan for `/f` finds the child key `/f/g`, so
`remove_dir("/f")` fails with `InvalidInput` — a File entry does not
always have zero children in the scan, and `remove_dir` on a File does not
always succeed. -/
theorem remove_dir_file_child_counterexample :
    (tget fileUnderFileState.fs pf).map Inode.kind = some InodeType.file ∧
    fileUnderFileState.remove_dir pf = .error ErrKind.invalidInput := by decide

/-- Claim C10 (amended): neither `remove_file` nor `remove_dir` checks the
kind of the entry being removed.  `remove_file` on a path holding a
Directory entry succeeds and removes only that single key (descendant keys
are untouched, hence possibly orphaned), and `remove_dir` on a path
holding a File entry succeeds and removes the file whenever the `read_dir`
scan finds no keys one component beneath it — which can fail to hold,
since `write` can create keys beneath a File path. -/
theorem remove_ops_ignore_kind (st : MemFloppyDisk) (p q : MemPath) (ip iq : Inode)
    (hpok : make_sure_path_exists st.fs p = .ok ())
    (_hip : tget st.fs p = some ip) (_hipd : ip.kind = InodeType.dir)
    (hqok : make_sure_path_exists st.fs q = .ok ())
    (_hiq : tget st.fs q = some iq) (_hiqf : iq.kind = InodeType.file)
    (hscan : readDirScan st.fs q = []) :
    st.remove_file p = .ok { st with fs := tremove st.fs p } ∧
    (∀ r, r ≠ p → tget (tremove st.fs p) r = tget st.fs r) ∧
    st.remove_dir q = .ok { st with fs := tremove st.fs q } := by
  refine ⟨?_, ?_, ?_⟩
  · unfold MemFloppyDisk.remove_file
    rw [hpok]
  · intro r hr
    unfold tremove
    rw [tget_filterKey (fun k => decide (k ≠ p)), if_pos (by simp [hr])]
  · unfold MemFloppyDisk.remove_dir
    rw [hqok, hscan]
    rfl

/-- Witness for C10 (amended): `/d` a childless directory removed by
`remove_file`, `/f` a childless file removed by `remove_dir`. -/
theorem remove_ops_ignore_kind_witness :
    stDirAndFile.remove_file pd
      = .ok { stDirAndFile with fs := tremove stDirAndFile.fs pd } ∧
    (∀ r, r ≠ pd → tget (tremove stDirAndFile.fs pd) r = tget stDirAndFile.fs r) ∧
    stDirAndFile.remove_dir pf
      = .ok { stDirAndFile with fs := tremove stDirAndFile.fs pf } :=
  remove_ops_ignore_kind stDirAndFile pd pf (Inode.new_dir 2 pd) (Inode.new_file 3 pf [])
    (by decide) (by decide) (by decide) (by decide) (by decide) (by decide) (by decide)

end Floppy
